import Mathlib

/-!
Verification of the hybrid retrieval and evidence-fusion subsystem of the
csc583-cosineofthrones repository (RAGThrones).

Shallow embedding conventions:
* Python floats are modelled by rationals (`ℚ`); none of the verified claims
  depends on floating-point rounding.
* The external collaborators (FAISS dense index, BM25 lexical index, embedding
  provider, cross-encoder model) are modelled by their outputs, passed as
  explicit arguments: `denseIdx`/`denseScores` are the two arrays returned by
  `faiss_index.search`, `bmScores` is the per-passage score list returned by
  `bm25.get_scores` (the spec's Lexical Index contract: one score per corpus
  passage, in corpus order).
* `pandas` data frames are modelled as Lean lists of rows.  Descending sorts
  (`scored.sort(..., reverse=True)`, `np.argsort(...)[::-1]`,
  `sort_values(..., ascending=False)`) are modelled by a stable descending
  insertion sort `sortD`.  NumPy's and pandas' tie order for equal keys is
  implementation-defined (quicksort), as is the iteration order of Python
  `set`s; the embedding fixes one definite order, and no verified claim
  depends on tie order ("ties aside" in the spec).
* String operations (`lower`, `split`, `strip`, substring `in`) are modelled
  on the character lists underlying Lean strings, so that all definitions
  evaluate by kernel reduction.
* Fallible external calls (cross-encoder model loading) are modelled by an
  `Option`-valued load outcome supplied by the environment.
-/

namespace CosineOfThrones

/-- A corpus passage: the `season` column as seen through
`pd.to_numeric(..., errors="coerce")` (`none` models an unparseable or
missing season) and the `text` column.  The other metadata columns are
carried opaquely by the real code and consulted by no verified operation,
so they are omitted from the model. -/
structure Passage where
  season : Option Int
  text : String
  deriving DecidableEq, Repr

/-- One row of a ResultTable: a passage plus the score column attached by the
fusion engine (`row["score"] = float(sc)` in `hybrid_search_aug`). -/
structure Row where
  season : Option Int
  text : String
  score : ℚ
  deriving DecidableEq, Repr

/-- Stable insertion into a descending-sorted list: `a` goes in front of the
first element it is allowed to precede according to `r`. -/
def insertD (r : α → α → Bool) (a : α) : List α → List α
  | [] => [a]
  | b :: bs => if r a b then a :: b :: bs else b :: insertD r a bs

/-- Stable sort by the comparator `r` (`r a b` = "`a` may precede `b`"):
models Python's stable `list.sort` / `sorted`.  With
`r a b = (b.score ≤ a.score)` this is the stable descending sort by score. -/
def sortD (r : α → α → Bool) : List α → List α
  | [] => []
  | x :: xs => insertD r x (sortD r xs)

/-- Python `s.strip()`: drop leading and trailing whitespace. -/
def pyStrip (s : String) : String :=
  String.mk (((s.toList.dropWhile Char.isWhitespace).reverse.dropWhile
    Char.isWhitespace).reverse)

/-- Helper for `tokenize`: split a character list into maximal whitespace-free
words (Python `str.split()` with no argument drops empty pieces). -/
def wordsAux (cur : List Char) : List Char → List (List Char)
  | [] => if cur = [] then [] else [cur.reverse]
  | c :: cs =>
    if c.isWhitespace then
      if cur = [] then wordsAux [] cs else cur.reverse :: wordsAux [] cs
    else wordsAux (c :: cur) cs

/-- Python `query.lower().split()` (hybrid_search.py line 97): lowercase,
split on runs of whitespace, drop empty pieces. -/
def tokenize (query : String) : List String :=
  (wordsAux [] (query.toList.map Char.toLower)).map String.mk

/-- `np.argsort(bm_scores)[::-1]` (hybrid_search.py line 100): the passage
positions sorted by descending BM25 score.  Out-of-range reads default to 0;
they never occur because `List.range` produces only in-range positions. -/
def argsortDesc (scores : List ℚ) : List ℕ :=
  sortD (fun i j => decide (scores.getD j 0 ≤ scores.getD i 0)) (List.range scores.length)

/-- `valid_vec_pairs` (hybrid_search.py lines 106-110): zip the FAISS result
indices with their scores and keep the pairs whose index satisfies
`0 <= int(idx) < max_valid`. -/
def validVecPairs (n : ℕ) (denseIdx : List Int) (denseScores : List ℚ) : List (ℕ × ℚ) :=
  ((denseIdx.zip denseScores).filter
      (fun p => decide (0 ≤ p.1 ∧ p.1 < (n : Int)))).map
    (fun p => (p.1.toNat, p.2))

/-- `v_map = {i: s for i, s in valid_vec_pairs}` read with `v_map.get(i, 0.0)`
(lines 112 and 127): a Python dict comprehension keeps the last binding of a
repeated key, hence the lookup over the reversed pair list. -/
def vMap (pairs : List (ℕ × ℚ)) (i : ℕ) : ℚ :=
  ((pairs.reverse.find? (fun p => p.1 == i)).map Prod.snd).getD 0

/-- `bm_top_valid` (line 114): the top `limit` BM25 positions, bounds-checked
(`0 <= int(i) < max_valid`; the lower bound is vacuous over `ℕ`). -/
def bmTopValid (n : ℕ) (bmScores : List ℚ) (limit : ℕ) : List ℕ :=
  ((argsortDesc bmScores).take limit).filter (fun i => decide (i < n))

/-- First-occurrence deduplication with an accumulator of already-seen
elements; used to model `list(set_a | set_b)` (line 116).  Python set
iteration order is implementation-defined; the model keeps first occurrences
of the concatenated lists. -/
def dedupFirstAux [DecidableEq α] (seen : List α) : List α → List α
  | [] => []
  | a :: as =>
    if a ∈ seen then dedupFirstAux seen as
    else a :: dedupFirstAux (a :: seen) as

/-- See `dedupFirstAux`. -/
def dedupFirst [DecidableEq α] (l : List α) : List α :=
  dedupFirstAux [] l

/-- `cand = list(vec_idx_valid | bm_top_valid)` (line 116): the fused
candidate set as a duplicate-free list. -/
def candidates (n : ℕ) (denseIdx : List Int) (denseScores : List ℚ)
    (bmScores : List ℚ) (topk cand_mult : ℕ) : List ℕ :=
  dedupFirst ((validVecPairs n denseIdx denseScores).map Prod.fst
    ++ bmTopValid n bmScores (topk * cand_mult))

/-- `bm_max = max(bm_scores) if len(bm_scores) else 1.0` (line 123). -/
def bmMax (bmScores : List ℚ) : ℚ :=
  match bmScores with
  | [] => 1
  | a :: as => as.foldl max a

/-- `final = alpha * v + (1 - alpha) * b` (line 129). -/
def blended (alpha v b : ℚ) : ℚ :=
  alpha * v + (1 - alpha) * b

/-- The normalized lexical score of candidate `i`
(`float(bm_scores[i]) / (bm_max + 1e-6)`, line 128). -/
def normLex (bmScores : List ℚ) (i : ℕ) : ℚ :=
  bmScores.getD i 0 / (bmMax bmScores + 1 / 1000000)

/-- The fusion core of `hybrid_search_aug` (hybrid_search.py lines 105-143)
after the external index calls: merge the candidate sets, blend the scores,
sort descending by blended score (Python's sort is stable) and keep the
first `topk` pairs `(corpus index, blended score)`. -/
def hybrid_core (n : ℕ) (denseIdx : List Int) (denseScores : List ℚ)
    (bmScores : List ℚ) (topk cand_mult : ℕ) (alpha : ℚ) : List (ℕ × ℚ) :=
  let pairs := validVecPairs n denseIdx denseScores
  let cand := candidates n denseIdx denseScores bmScores topk cand_mult
  if cand = [] then []
  else
    let scored := cand.map
      (fun i => (i, blended alpha (vMap pairs i) (normLex bmScores i)))
    let sorted := sortD (fun a b => decide (b.2 ≤ a.2)) scored
    sorted.take topk

/-- `hybrid_search_aug` (lines 31-143) with the external index outputs passed
explicitly: the result table, each row being the corpus passage at the
candidate index (`df_aug.iloc[int(i)].to_dict()`, line 139) with the blended
score attached (`row["score"] = float(sc)`, line 140). -/
def hybrid_search_aug (corpus : List Passage) (denseIdx : List Int)
    (denseScores : List ℚ) (bmScores : List ℚ) (topk cand_mult : ℕ)
    (alpha : ℚ) : List Row :=
  (hybrid_core corpus.length denseIdx denseScores bmScores topk cand_mult alpha).map
    (fun p =>
      { season := (corpus.getD p.1 ⟨none, ""⟩).season
        text := (corpus.getD p.1 ⟨none, ""⟩).text
        score := p.2 })

/-- Ranking a candidate list by an arbitrary score function: map,
stable-sort descending, truncate.  `hybrid_core` is `rankedBy` at the
blended score; the alpha-boundary claim compares it with `rankedBy` at the
pure vector score and at the pure normalized lexical score. -/
def rankedBy (cand : List ℕ) (f : ℕ → ℚ) (topk : ℕ) : List (ℕ × ℚ) :=
  (sortD (fun a b => decide (b.2 ≤ a.2)) (cand.map (fun i => (i, f i)))).take topk

/-- The spec's description of the lexical normalizer's denominator base: the
maximum lexical score over the whole corpus, taken as 1.0 when the corpus
score list is empty. -/
def bmMaxSpec (bmScores : List ℚ) : ℚ :=
  match bmScores.max? with
  | none => 1
  | some m => m

/-! ## Multi-Query Aggregator (multi_agent_graph.py, `_retrieve_with_hybrid`) -/

/-- `merged.drop_duplicates(subset=["text"])` (multi_agent_graph.py line 99):
keep the first row for each passage text, with an accumulator of texts
already seen. -/
def dropDupByTextAux (seen : List String) : List Row → List Row
  | [] => []
  | r :: rs =>
    if r.text ∈ seen then dropDupByTextAux seen rs
    else r :: dropDupByTextAux (r.text :: seen) rs

/-- See `dropDupByTextAux`. -/
def dropDupByText (df : List Row) : List Row :=
  dropDupByTextAux [] df

/-- The per-query tables kept by the loop of `_retrieve_with_hybrid`
(multi_agent_graph.py lines 86-93): strip each query, skip empty ones, call
the fusion engine (`search` models `hybrid_search_aug(q, topk=topk)`), and
keep only non-empty result tables. -/
def aggDfs (search : String → List Row) (queries : List String) : List (List Row) :=
  (((queries.map pyStrip).filter (fun q => decide (q ≠ ""))).map search).filter
    (fun df => decide (df ≠ []))

/-- `_retrieve_with_hybrid` (multi_agent_graph.py lines 79-100): run the
fusion engine once per non-empty stripped query, concatenate the non-empty
result tables, deduplicate by exact passage text keeping first occurrences.
A single query string is treated by the source as the singleton list, which
the caller of this model performs. -/
def retrieve_with_hybrid (search : String → List Row) (queries : List String) : List Row :=
  match aggDfs search queries with
  | [] => []
  | dfs => dropDupByText dfs.flatten

/-! ## Temporal Filter (multi_agent_graph.py, `_filter_to_pre_s8`) -/

/-- The fixed forbidden marker phrases (multi_agent_graph.py lines 143-150). -/
def s8Keywords : List String :=
  ["season 8", "eighth and final season", "the iron throne", "s8e",
   "series finale", "final season of the fantasy drama television series"]

/-- Does `hay` start with `needle`?  Helper for substring containment. -/
def headMatches : List Char → List Char → Bool
  | [], _ => true
  | _ :: _, [] => false
  | a :: as, b :: bs => a == b && headMatches as bs

/-- Python substring containment `needle in hay` on character lists. -/
def containsSeq (needle : List Char) : List Char → Bool
  | [] => needle == []
  | b :: bs => headMatches needle (b :: bs) || containsSeq needle bs

/-- `_looks_like_s8` (lines 152-154): lowercase the text and test each
keyword for substring containment (Python `k in t`). -/
def looksLikeS8 (text : String) : Bool :=
  s8Keywords.any (fun k => containsSeq k.toList (text.toList.map Char.toLower))

/-- `_filter_to_pre_s8` (multi_agent_graph.py lines 118-169): keep rows with
a parseable season at most 7; among rows with no parseable season, keep
those whose text does not look like season 8; concatenate the two kept
groups.  (The empty-input early return and the helper-column bookkeeping of
the source are identities in this model.) -/
def filter_to_pre_s8 (df : List Row) : List Row :=
  let dfPre := df.filter (fun r =>
    match r.season with
    | some s => decide (s ≤ 7)
    | none => false)
  let dfUnknown := df.filter (fun r => decide (r.season = none))
  dfPre ++ dfUnknown.filter (fun r => ! looksLikeS8 r.text)

/-! ## Relevance Reranker (reranker_agent.py, shared/helpers.py) -/

/-- The cross-encoder's `predict`: scores for a batch of
(question, passage text) pairs.  External collaborator, modelled by its
interface. -/
abbrev CrossEnc := List (String × String) → List ℚ

/-- The two shapes a reranking step can return: the untouched input table
(pass-through) or a table re-sorted by the attached `rerank_score` column. -/
inductive RerankResult where
  | passthrough (df : List Row)
  | reranked (df : List (Row × ℚ))
  deriving DecidableEq

/-- `rerank` (reranker_agent.py lines 58-88), with the result of the inner
`get_reranker()` call passed as `model`: empty input and unavailable model
are pass-through; otherwise each row is paired with its predicted score and
the table is sorted descending by that score.  (The source prints a warning
in the pass-through branch; printing is I/O and not modelled.) -/
def rerank (model : Option CrossEnc) (df : List Row) (question : String) : RerankResult :=
  if df = [] then .passthrough df
  else
    match model with
    | none => .passthrough df
    | some m =>
      let pairs := df.map (fun r => (question, r.text))
      let scores := m pairs
      let sorted := sortD (fun a b => decide (b.2 ≤ a.2)) (df.zip scores)
      .reranked sorted

/-- The `state.logs["reranker"]` entry written by `node_reranker`
(shared/helpers.py lines 86 and 97-100). -/
structure RerankerLog where
  used : Bool
  reason : Option String
  topScore : Option ℚ
  deriving DecidableEq

/-- `node_reranker` (shared/helpers.py lines 74-102): if there are no
retrieved hits or no model, pass the retrieved table through unchanged and
log that reranking was not used; otherwise score, sort descending and log
the top score.  Returns the new `state.reranked` value and the log entry. -/
def node_reranker (question : String) (retrieved : Option (List Row))
    (model : Option CrossEnc) : Option RerankResult × RerankerLog :=
  match retrieved, model with
  | none, _ => (none, ⟨false, some "no-hits-or-no-model", none⟩)
  | some df, none => (some (.passthrough df), ⟨false, some "no-hits-or-no-model", none⟩)
  | some df, some m =>
    if df = [] then (some (.passthrough df), ⟨false, some "no-hits-or-no-model", none⟩)
    else
      let pairs := df.map (fun r => (question, r.text))
      let scores := m pairs
      let sorted := sortD (fun a b => decide (b.2 ≤ a.2)) (df.zip scores)
      (some (.reranked sorted), ⟨true, none, sorted.head?.map Prod.snd⟩)

/-- The observable outcome of one `get_reranker()` call. -/
structure RerankerCall (M : Type) where
  returned : Option M
  cache : Option M
  attempted : Bool
  deriving DecidableEq

/-- One call of `get_reranker` (reranker_agent.py lines 28-51) as a step on
the module-global `_RERANKER` cache.  `loadOutcome` is the environment's
answer to the `CrossEncoder(model_name)` constructor: `some m` on success;
`none` when the constructor raises (the except branch stores `None` in the
cache and returns `None`).  `attempted` records whether this call reached
the constructor at all. -/
def get_reranker_step (cache loadOutcome : Option M) : RerankerCall M :=
  match cache with
  | some m => ⟨some m, some m, false⟩
  | none => ⟨loadOutcome, loadOutcome, true⟩

/-- A sequence of `get_reranker()` calls within one process, threading the
`_RERANKER` cache: for each call, the value returned and whether a model
load was attempted. -/
def run_get_reranker (cache : Option M) : List (Option M) → List (Option M × Bool)
  | [] => []
  | o :: os =>
    let c := get_reranker_step cache o
    (c.returned, c.attempted) :: run_get_reranker c.cache os

/-! ## Helper lemmas about the sorting and deduplication primitives -/

theorem insertD_perm (r : α → α → Bool) (a : α) (l : List α) :
    (insertD r a l).Perm (a :: l) := by
  induction l with
  | nil => exact List.Perm.refl _
  | cons b bs ih =>
    unfold insertD
    split
    · exact List.Perm.refl _
    · exact (ih.cons b).trans (List.Perm.swap a b bs)

theorem sortD_perm (r : α → α → Bool) (l : List α) : (sortD r l).Perm l := by
  induction l with
  | nil => exact List.Perm.refl _
  | cons x xs ih => exact (insertD_perm r x (sortD r xs)).trans (ih.cons x)

theorem length_sortD (r : α → α → Bool) (l : List α) : (sortD r l).length = l.length :=
  (sortD_perm r l).length_eq

theorem mem_sortD (r : α → α → Bool) (l : List α) (x : α) : x ∈ sortD r l ↔ x ∈ l :=
  (sortD_perm r l).mem_iff

theorem mem_dedupFirstAux [DecidableEq α] (seen : List α) (l : List α) (a : α) :
    a ∈ dedupFirstAux seen l ↔ a ∈ l ∧ a ∉ seen := by
  induction l generalizing seen with
  | nil => simp [dedupFirstAux]
  | cons b bs ih =>
    unfold dedupFirstAux
    split
    · rename_i h
      rw [ih seen]
      constructor
      · rintro ⟨h1, h2⟩
        exact ⟨List.mem_cons_of_mem _ h1, h2⟩
      · rintro ⟨h1, h2⟩
        rcases List.mem_cons.mp h1 with rfl | h1
        · exact absurd h h2
        · exact ⟨h1, h2⟩
    · rename_i h
      rw [List.mem_cons, ih (b :: seen)]
      constructor
      · rintro (rfl | ⟨h1, h2⟩)
        · exact ⟨List.mem_cons_self _ _, h⟩
        · exact ⟨List.mem_cons_of_mem _ h1, fun hc => h2 (List.mem_cons_of_mem _ hc)⟩
      · rintro ⟨h1, h2⟩
        rcases List.mem_cons.mp h1 with rfl | h1
        · exact Or.inl rfl
        · by_cases hab : a = b
          · exact Or.inl hab
          · exact Or.inr ⟨h1, fun hc => by
              rcases List.mem_cons.mp hc with h3 | h3
              · exact hab h3
              · exact h2 h3⟩

theorem nodup_dedupFirstAux [DecidableEq α] (seen : List α) (l : List α) :
    (dedupFirstAux seen l).Nodup := by
  induction l generalizing seen with
  | nil => exact List.nodup_nil
  | cons b bs ih =>
    unfold dedupFirstAux
    split
    · exact ih seen
    · refine List.nodup_cons.mpr ⟨fun hc => ?_, ih (b :: seen)⟩
      exact ((mem_dedupFirstAux _ _ _).mp hc).2 (List.mem_cons_self _ _)

theorem mem_dedupFirst [DecidableEq α] (l : List α) (a : α) :
    a ∈ dedupFirst l ↔ a ∈ l := by
  simp [dedupFirst, mem_dedupFirstAux]

theorem nodup_dedupFirst [DecidableEq α] (l : List α) : (dedupFirst l).Nodup :=
  nodup_dedupFirstAux [] l

theorem toFinset_dedupFirst [DecidableEq α] (l : List α) :
    (dedupFirst l).toFinset = l.toFinset := by
  ext a
  simp [List.mem_toFinset, mem_dedupFirst]

theorem length_dedupFirst [DecidableEq α] (l : List α) :
    (dedupFirst l).length = l.toFinset.card := by
  rw [← List.toFinset_card_of_nodup (nodup_dedupFirst l), toFinset_dedupFirst]

theorem argsortDesc_perm (s : List ℚ) : (argsortDesc s).Perm (List.range s.length) :=
  sortD_perm _ _

theorem mem_argsortDesc (s : List ℚ) (i : ℕ) : i ∈ argsortDesc s ↔ i < s.length := by
  rw [(argsortDesc_perm s).mem_iff, List.mem_range]

theorem length_argsortDesc (s : List ℚ) : (argsortDesc s).length = s.length :=
  (argsortDesc_perm s).length_eq.trans (List.length_range _)

theorem nodup_argsortDesc (s : List ℚ) : (argsortDesc s).Nodup :=
  (argsortDesc_perm s).nodup_iff.mpr (List.nodup_range _)

/-! ## Helper lemmas about the candidate set and the fusion core -/

theorem mem_bmTopValid_lt {n : ℕ} {bS : List ℚ} {limit i : ℕ}
    (h : i ∈ bmTopValid n bS limit) : i < n := by
  rcases List.mem_filter.mp h with ⟨-, hd⟩
  exact of_decide_eq_true hd

theorem nodup_bmTopValid (n : ℕ) (bS : List ℚ) (limit : ℕ) :
    (bmTopValid n bS limit).Nodup :=
  ((List.filter_sublist _).trans (List.take_sublist _ _)).nodup (nodup_argsortDesc bS)

theorem length_bmTopValid {n : ℕ} {bS : List ℚ} (limit : ℕ) (h : bS.length = n) :
    (bmTopValid n bS limit).length = min limit n := by
  have hall : ∀ i ∈ (argsortDesc bS).take limit, decide (i < n) = true := by
    intro i hi
    have := (mem_argsortDesc bS i).mp (List.take_subset _ _ hi)
    simpa [h] using this
  rw [bmTopValid, List.filter_eq_self.mpr hall, List.length_take, length_argsortDesc, h]

theorem mem_candidates {n : ℕ} {dI : List Int} {dS bS : List ℚ} {topk cm i : ℕ} :
    i ∈ candidates n dI dS bS topk cm ↔
      i ∈ (validVecPairs n dI dS).map Prod.fst ∨ i ∈ bmTopValid n bS (topk * cm) := by
  simp [candidates, mem_dedupFirst]

theorem mem_validVecPairs_fst_lt {n : ℕ} {dI : List Int} {dS : List ℚ} {i : ℕ}
    (h : i ∈ (validVecPairs n dI dS).map Prod.fst) : i < n := by
  simp only [validVecPairs, List.map_map, List.mem_map, List.mem_filter,
    Function.comp] at h
  rcases h with ⟨p, ⟨-, hd⟩, rfl⟩
  rcases of_decide_eq_true hd with ⟨h0, hn⟩
  exact (Int.toNat_lt h0).mpr hn

theorem mem_candidates_lt {n : ℕ} {dI : List Int} {dS bS : List ℚ} {topk cm i : ℕ}
    (h : i ∈ candidates n dI dS bS topk cm) : i < n := by
  rcases mem_candidates.mp h with h | h
  · exact mem_validVecPairs_fst_lt h
  · exact mem_bmTopValid_lt h

theorem nodup_candidates (n : ℕ) (dI : List Int) (dS bS : List ℚ) (topk cm : ℕ) :
    (candidates n dI dS bS topk cm).Nodup :=
  nodup_dedupFirst _

theorem length_candidates_le (n : ℕ) (dI : List Int) (dS bS : List ℚ) (topk cm : ℕ) :
    (candidates n dI dS bS topk cm).length ≤ n := by
  have hsub : (candidates n dI dS bS topk cm).toFinset ⊆ Finset.range n := by
    intro i hi
    exact Finset.mem_range.mpr (mem_candidates_lt (List.mem_toFinset.mp hi))
  calc (candidates n dI dS bS topk cm).length
      = (candidates n dI dS bS topk cm).toFinset.card :=
        (List.toFinset_card_of_nodup (nodup_candidates n dI dS bS topk cm)).symm
    _ ≤ (Finset.range n).card := Finset.card_le_card hsub
    _ = n := Finset.card_range n

theorem min_le_length_candidates {n : ℕ} (dI : List Int) (dS : List ℚ) {bS : List ℚ}
    (topk cm : ℕ) (h : bS.length = n) :
    min (topk * cm) n ≤ (candidates n dI dS bS topk cm).length := by
  have hsub : (bmTopValid n bS (topk * cm)).toFinset ⊆
      (candidates n dI dS bS topk cm).toFinset := by
    intro i hi
    exact List.mem_toFinset.mpr (mem_candidates.mpr (Or.inr (List.mem_toFinset.mp hi)))
  calc min (topk * cm) n
      = (bmTopValid n bS (topk * cm)).length := (length_bmTopValid _ h).symm
    _ = (bmTopValid n bS (topk * cm)).toFinset.card :=
        (List.toFinset_card_of_nodup (nodup_bmTopValid n bS (topk * cm))).symm
    _ ≤ (candidates n dI dS bS topk cm).toFinset.card := Finset.card_le_card hsub
    _ = (candidates n dI dS bS topk cm).length :=
        List.toFinset_card_of_nodup (nodup_candidates n dI dS bS topk cm)

theorem hybrid_core_length (n : ℕ) (dI : List Int) (dS bS : List ℚ) (topk cm : ℕ)
    (alpha : ℚ) :
    (hybrid_core n dI dS bS topk cm alpha).length
      = min topk (candidates n dI dS bS topk cm).length := by
  by_cases h : candidates n dI dS bS topk cm = []
  · simp [hybrid_core, h]
  · simp [hybrid_core, h, List.length_take, length_sortD]

theorem hybrid_core_length_full {n : ℕ} (dI : List Int) (dS : List ℚ) {bS : List ℚ}
    {topk cm : ℕ} (alpha : ℚ) (hbm : bS.length = n) (ht : 1 ≤ topk) (hc : 1 ≤ cm) :
    (hybrid_core n dI dS bS topk cm alpha).length = min topk n := by
  rw [hybrid_core_length]
  have h1 := length_candidates_le n dI dS bS topk cm
  have h2 := min_le_length_candidates dI dS topk cm hbm
  have h3 : topk ≤ topk * cm := Nat.le_mul_of_pos_right topk (Nat.lt_of_lt_of_le Nat.zero_lt_one hc)
  omega

theorem mem_hybrid_core {n : ℕ} {dI : List Int} {dS bS : List ℚ} {topk cm : ℕ}
    {alpha : ℚ} {p : ℕ × ℚ} (hp : p ∈ hybrid_core n dI dS bS topk cm alpha) :
    p.1 ∈ candidates n dI dS bS topk cm ∧
      p.2 = blended alpha (vMap (validVecPairs n dI dS) p.1) (normLex bS p.1) := by
  by_cases h : candidates n dI dS bS topk cm = []
  · simp [hybrid_core, h] at hp
  · simp only [hybrid_core, if_neg h] at hp
    have hp2 := (mem_sortD _ _ _).mp (List.take_subset _ _ hp)
    rcases List.mem_map.mp hp2 with ⟨i, hi, rfl⟩
    exact ⟨hi, rfl⟩

theorem vMap_eq_lookup (pairs : List (ℕ × ℚ)) (i : ℕ)
    (h : (pairs.map Prod.fst).Nodup) :
    vMap pairs i = (pairs.lookup i).getD 0 := by
  induction pairs with
  | nil => rfl
  | cons kv rest ih =>
    rcases kv with ⟨k, v⟩
    simp only [List.map_cons, List.nodup_cons] at h
    obtain ⟨hk, hrest⟩ := h
    by_cases hki : k = i
    · subst hki
      have hnone : (rest.reverse).find? (fun p => p.1 == k) = none := by
        rw [List.find?_eq_none]
        intro x hx hpx
        exact hk (List.mem_map.mpr ⟨x, List.mem_reverse.mp hx, beq_iff_eq.mp hpx⟩)
      simp [vMap, List.find?_append, hnone, List.lookup]
    · have hbk : (k == i) = false := by simp [hki]
      have hbi : (i == k) = false := by
        simp only [beq_eq_false_iff_ne, ne_eq]
        exact fun e => hki e.symm
      have hkv : ((k, v) :: rest).reverse.find? (fun p => p.1 == i)
          = rest.reverse.find? (fun p => p.1 == i) := by
        rw [List.reverse_cons, List.find?_append]
        have : List.find? (fun p => p.1 == i) [(k, v)] = none := by
          simp [List.find?, hbk]
        rw [this, Option.or_none]
      have hlk : (((k, v) :: rest).lookup i) = rest.lookup i := by
        simp [List.lookup, hbi]
      rw [vMap, hkv, hlk, ← vMap, ih hrest]

theorem bmMax_eq_bmMaxSpec (l : List ℚ) : bmMax l = bmMaxSpec l := by
  cases l <;> rfl

/-! ## Claim theorems for the Hybrid Fusion Engine -/

/-- C1: every row of the fused result carries the blended score
`alpha * vector_score + (1 - alpha) * (lexical_score / (max_lexical_score + 1e-6))`,
where the vector score is the dense score recorded for the candidate (0 when
the candidate appears only in the lexical top set) and the maximum lexical
score is taken over the whole corpus score list (1.0 when that list is
empty).  The `hkeys` hypothesis states that the valid dense pairs have
pairwise distinct indices, which holds of a single FAISS query result. -/
theorem hybrid_blended_score_formula (n : ℕ) (dI : List Int) (dS bS : List ℚ)
    (topk cm : ℕ) (alpha : ℚ)
    (hkeys : ((validVecPairs n dI dS).map Prod.fst).Nodup) :
    (∀ i ∈ candidates n dI dS bS topk cm,
        blended alpha (vMap (validVecPairs n dI dS) i) (normLex bS i)
          = alpha * ((validVecPairs n dI dS).lookup i).getD 0
            + (1 - alpha) * (bS.getD i 0 / (bmMaxSpec bS + 1 / 1000000)))
    ∧ (∀ p ∈ hybrid_core n dI dS bS topk cm alpha,
        p.2 = alpha * ((validVecPairs n dI dS).lookup p.1).getD 0
          + (1 - alpha) * (bS.getD p.1 0 / (bmMaxSpec bS + 1 / 1000000))) := by
  have key : ∀ i : ℕ,
      blended alpha (vMap (validVecPairs n dI dS) i) (normLex bS i)
        = alpha * ((validVecPairs n dI dS).lookup i).getD 0
          + (1 - alpha) * (bS.getD i 0 / (bmMaxSpec bS + 1 / 1000000)) := by
    intro i
    rw [blended, normLex, vMap_eq_lookup _ _ hkeys, bmMax_eq_bmMaxSpec]
  exact ⟨fun i _ => key i, fun p hp => by rw [(mem_hybrid_core hp).2, key p.1]⟩

/-- Witness for C1 at a concrete store: one passage, dense neighbor 0 with
score 1/2, lexical scores `[0]`, `alpha = 1`. -/
theorem hybrid_blended_score_formula_witness :
    ((validVecPairs 1 [0] [(1 : ℚ)/2]).map Prod.fst).Nodup
    ∧ ((∀ i ∈ candidates 1 [0] [(1 : ℚ)/2] [0] 1 1,
          blended 1 (vMap (validVecPairs 1 [0] [(1 : ℚ)/2]) i) (normLex [0] i)
            = 1 * ((validVecPairs 1 [0] [(1 : ℚ)/2]).lookup i).getD 0
              + (1 - 1) * (([0] : List ℚ).getD i 0 / (bmMaxSpec [0] + 1 / 1000000)))
      ∧ (∀ p ∈ hybrid_core 1 [0] [(1 : ℚ)/2] [0] 1 1 1,
          p.2 = 1 * ((validVecPairs 1 [0] [(1 : ℚ)/2]).lookup p.1).getD 0
            + (1 - 1) * (([0] : List ℚ).getD p.1 0 / (bmMaxSpec [0] + 1 / 1000000)))) :=
  ⟨by simp [validVecPairs],
   hybrid_blended_score_formula 1 [0] [(1 : ℚ)/2] [0] 1 1 1 (by simp [validVecPairs])⟩

/-- C2: the fused result never mentions an out-of-range dense index: every
returned row's corpus index is in range, and in particular differs from
every negative or too-large index in the dense result list.  (The model is a
total function, so no exception can be raised.) -/
theorem invalid_dense_indices_excluded (n : ℕ) (dI : List Int) (dS bS : List ℚ)
    (topk cm : ℕ) (alpha : ℚ) (p : ℕ × ℚ)
    (hp : p ∈ hybrid_core n dI dS bS topk cm alpha) :
    p.1 < n ∧ ∀ j ∈ dI, (j < 0 ∨ (n : Int) ≤ j) → (p.1 : Int) ≠ j := by
  have h1 : p.1 < n := mem_candidates_lt (mem_hybrid_core hp).1
  refine ⟨h1, fun j _ hout heq => ?_⟩
  rcases hout with hneg | hge <;> omega

/-- Witness for C2: the dense index returned the sentinel -1; the single
returned row has the in-range index 0. -/
theorem invalid_dense_indices_excluded_witness :
    ((0 : ℕ), (0 : ℚ)) ∈ hybrid_core 1 [-1] [1] [0] 1 1 (7/20)
    ∧ (((0 : ℕ), (0 : ℚ)).1 < 1
        ∧ ∀ j ∈ [(-1 : Int)], (j < 0 ∨ (1 : Int) ≤ j) → (((0 : ℕ), (0 : ℚ)).1 : Int) ≠ j) :=
  ⟨by simp [hybrid_core, candidates, validVecPairs, bmTopValid, argsortDesc, sortD,
      insertD, dedupFirst, dedupFirstAux, vMap, normLex, bmMax, blended],
   invalid_dense_indices_excluded 1 [-1] [1] [0] 1 1 (7/20) ((0 : ℕ), (0 : ℚ))
     (by simp [hybrid_core, candidates, validVecPairs, bmTopValid, argsortDesc, sortD,
        insertD, dedupFirst, dedupFirstAux, vMap, normLex, bmMax, blended])⟩

/-- C3: at `alpha = 1` the fusion core is exactly the ranking of the candidate
set by dense vector score (candidates absent from the dense results scoring
0), and at `alpha = 0` it is exactly the ranking by normalized lexical
score; the sort is the same stable descending sort in all three rankings, so
tie handling is identical. -/
theorem alpha_boundary_ranking (n : ℕ) (dI : List Int) (dS bS : List ℚ)
    (topk cm : ℕ) :
    hybrid_core n dI dS bS topk cm 1
        = rankedBy (candidates n dI dS bS topk cm)
            (fun i => vMap (validVecPairs n dI dS) i) topk
    ∧ hybrid_core n dI dS bS topk cm 0
        = rankedBy (candidates n dI dS bS topk cm) (normLex bS) topk := by
  constructor <;>
  · by_cases h : candidates n dI dS bS topk cm = [] <;>
      simp [hybrid_core, rankedBy, blended, sortD, h]

/-- C4: the fused table never has more than `topk` rows, and it has exactly
`topk` rows only if the valid candidate union (valid dense indices united
with valid lexical indices) has at least `topk` members. -/
theorem topk_bound (corpus : List Passage) (dI : List Int) (dS bS : List ℚ)
    (topk cm : ℕ) (alpha : ℚ) (ht : 1 ≤ topk) (hc : 1 ≤ cm) :
    (hybrid_search_aug corpus dI dS bS topk cm alpha).length ≤ topk
    ∧ ((hybrid_search_aug corpus dI dS bS topk cm alpha).length = topk →
        topk ≤ (candidates corpus.length dI dS bS topk cm).length) := by
  have hlen : (hybrid_search_aug corpus dI dS bS topk cm alpha).length
      = min topk (candidates corpus.length dI dS bS topk cm).length := by
    rw [hybrid_search_aug, List.length_map, hybrid_core_length]
  constructor
  · rw [hlen]; exact Nat.min_le_left _ _
  · intro h; rw [hlen] at h; omega

/-- Witness for C4 at a concrete store with `topk = cand_mult = 1`. -/
theorem topk_bound_witness :
    1 ≤ 1 ∧ 1 ≤ 1
    ∧ ((hybrid_search_aug [⟨some 1, "hello"⟩] [-1] [1] [0] 1 1 (7/20)).length ≤ 1
      ∧ ((hybrid_search_aug [⟨some 1, "hello"⟩] [-1] [1] [0] 1 1 (7/20)).length = 1 →
          1 ≤ (candidates ([⟨some 1, "hello"⟩] : List Passage).length [-1] [1] [0] 1 1).length)) :=
  ⟨le_refl 1, le_refl 1,
   topk_bound [⟨some 1, "hello"⟩] [-1] [1] [0] 1 1 (7/20) (le_refl 1) (le_refl 1)⟩

/-- C5 counterexample: the claim asserts that the empty query yields an empty
table.  On a one-passage corpus the empty query tokenizes to no tokens, the
Lexical Index therefore scores every passage 0 (`[0]` here), and even with
no valid dense neighbor (`[-1]` sentinel) the fusion engine still returns
one row at the default `alpha = 0.35`, because the lexical stage contributes
its top `argsort` indices regardless of their scores. -/
theorem empty_query_returns_rows_cex :
    tokenize "" = []
    ∧ hybrid_search_aug [⟨some 1, "hello"⟩] [-1] [1] [0] 1 1 (7/20) ≠ [] :=
  ⟨by decide,
   by simp [hybrid_search_aug, hybrid_core, candidates, validVecPairs, bmTopValid,
      argsortDesc, sortD, insertD, dedupFirst, dedupFirstAux, vMap, normLex, bmMax,
      blended]⟩

/-- C5 amended: `hybrid_search_aug("", topk, alpha, cand_mult)` does not raise,
but instead of always returning an empty table it returns exactly
`min(topk, corpus size)` rows — the empty query tokenizes to no tokens and
gets an all-zero lexical score vector (`replicate` below), yet the lexical
top indices still enter the candidate set; the table is empty exactly when
the corpus is empty. -/
theorem empty_query_table_size (corpus : List Passage) (dI : List Int)
    (dS : List ℚ) (topk cm : ℕ) (alpha : ℚ) (ht : 1 ≤ topk) (hc : 1 ≤ cm) :
    tokenize "" = []
    ∧ (hybrid_search_aug corpus dI dS (List.replicate corpus.length 0)
        topk cm alpha).length = min topk corpus.length := by
  refine ⟨by decide, ?_⟩
  rw [hybrid_search_aug, List.length_map]
  exact hybrid_core_length_full dI dS alpha (List.length_replicate _ _) ht hc

/-- Witness for the amended C5 at a concrete one-passage corpus. -/
theorem empty_query_table_size_witness :
    1 ≤ 1 ∧ 1 ≤ 1
    ∧ (tokenize "" = []
      ∧ (hybrid_search_aug [⟨some 1, "hello"⟩] [-1] [1]
          (List.replicate ([⟨some 1, "hello"⟩] : List Passage).length 0)
          1 1 (7/20)).length = min 1 ([⟨some 1, "hello"⟩] : List Passage).length) :=
  ⟨le_refl 1, le_refl 1,
   empty_query_table_size [⟨some 1, "hello"⟩] [-1] [1] 1 1 (7/20) (le_refl 1) (le_refl 1)⟩

/-- C10: for a non-empty corpus, whenever the index calls return (any dense
output, any lexical score vector of corpus length — including the all-zero
one of a query sharing no token with any passage), the fused table has
exactly `min(topk, corpus size)` rows, and every one of the top
`topk * cand_mult` BM25-ranked indices enters the candidate set regardless
of its score. -/
theorem lexical_always_contributes (corpus : List Passage) (dI : List Int)
    (dS bS : List ℚ) (topk cm : ℕ) (alpha : ℚ)
    (hbm : bS.length = corpus.length) (hcorpus : corpus ≠ [])
    (ht : 1 ≤ topk) (hc : 1 ≤ cm) :
    (hybrid_search_aug corpus dI dS bS topk cm alpha).length = min topk corpus.length
    ∧ ∀ i ∈ (argsortDesc bS).take (topk * cm),
        i ∈ candidates corpus.length dI dS bS topk cm := by
  constructor
  · rw [hybrid_search_aug, List.length_map]
    exact hybrid_core_length_full dI dS alpha hbm ht hc
  · intro i hi
    have hlt : i < corpus.length := by
      have := (mem_argsortDesc bS i).mp (List.take_subset _ _ hi)
      omega
    exact mem_candidates.mpr (Or.inr (List.mem_filter.mpr ⟨hi, decide_eq_true hlt⟩))

/-- Witness for C10 at a concrete one-passage corpus with an all-zero lexical
score vector. -/
theorem lexical_always_contributes_witness :
    ([(0 : ℚ)] : List ℚ).length = ([⟨some 1, "hello"⟩] : List Passage).length
    ∧ ([⟨some 1, "hello"⟩] : List Passage) ≠ [] ∧ 1 ≤ 1 ∧ 1 ≤ 1
    ∧ ((hybrid_search_aug [⟨some 1, "hello"⟩] [-1] [1] [0] 1 1 (7/20)).length
        = min 1 ([⟨some 1, "hello"⟩] : List Passage).length
      ∧ ∀ i ∈ (argsortDesc [0]).take (1 * 1),
          i ∈ candidates ([⟨some 1, "hello"⟩] : List Passage).length [-1] [1] [0] 1 1) :=
  ⟨rfl, by decide, le_refl 1, le_refl 1,
   lexical_always_contributes [⟨some 1, "hello"⟩] [-1] [1] [0] 1 1 (7/20)
     rfl (by decide) (le_refl 1) (le_refl 1)⟩

/-! ## Helper lemmas about text deduplication, and the Aggregator claim -/

theorem sublist_dropDupByTextAux (seen : List String) (l : List Row) :
    (dropDupByTextAux seen l).Sublist l := by
  induction l generalizing seen with
  | nil => exact List.nil_sublist _
  | cons r rs ih =>
    unfold dropDupByTextAux
    split
    · exact (ih seen).cons r
    · exact (ih (r.text :: seen)).cons₂ r

theorem text_mem_dropDupByTextAux (seen : List String) (l : List Row) (t : String) :
    (∃ r ∈ dropDupByTextAux seen l, r.text = t) ↔
      (∃ r ∈ l, r.text = t) ∧ t ∉ seen := by
  induction l generalizing seen with
  | nil => simp [dropDupByTextAux]
  | cons r rs ih =>
    unfold dropDupByTextAux
    split
    · rename_i h
      rw [ih seen]
      constructor
      · rintro ⟨⟨x, hx, he⟩, hn⟩
        exact ⟨⟨x, List.mem_cons_of_mem _ hx, he⟩, hn⟩
      · rintro ⟨⟨x, hx, he⟩, hn⟩
        rcases List.mem_cons.mp hx with rfl | hx
        · exact absurd (he ▸ h) hn
        · exact ⟨⟨x, hx, he⟩, hn⟩
    · rename_i h
      constructor
      · rintro ⟨x, hx, he⟩
        rcases List.mem_cons.mp hx with rfl | hx
        · exact ⟨⟨x, List.mem_cons_self _ _, he⟩, he ▸ h⟩
        · rcases (ih (r.text :: seen)).mp ⟨x, hx, he⟩ with ⟨⟨y, hy, hye⟩, hn⟩
          exact ⟨⟨y, List.mem_cons_of_mem _ hy, hye⟩,
            fun hc => hn (List.mem_cons_of_mem _ hc)⟩
      · rintro ⟨⟨x, hx, he⟩, hn⟩
        rcases List.mem_cons.mp hx with rfl | hx
        · exact ⟨x, List.mem_cons_self _ _, he⟩
        · by_cases htr : t = r.text
          · exact ⟨r, List.mem_cons_self _ _, htr.symm⟩
          · rcases (ih (r.text :: seen)).mpr
              ⟨⟨x, hx, he⟩, by
                intro hc
                rcases List.mem_cons.mp hc with h1 | h1
                · exact htr h1
                · exact hn h1⟩ with ⟨y, hy, hye⟩
            exact ⟨y, List.mem_cons_of_mem _ hy, hye⟩

theorem nodup_text_dropDupByTextAux (seen : List String) (l : List Row) :
    ((dropDupByTextAux seen l).map Row.text).Nodup := by
  induction l generalizing seen with
  | nil => simp [dropDupByTextAux]
  | cons r rs ih =>
    unfold dropDupByTextAux
    split
    · exact ih seen
    · rw [List.map_cons]
      refine List.nodup_cons.mpr ⟨fun hc => ?_, ih (r.text :: seen)⟩
      rcases List.mem_map.mp hc with ⟨x, hx, he⟩
      rcases (text_mem_dropDupByTextAux _ _ _).mp ⟨x, hx, he⟩ with ⟨-, hn⟩
      exact hn (List.mem_cons_self _ _)

theorem find?_dropDupByTextAux (seen : List String) (l : List Row) (t : String)
    (ht : t ∉ seen) :
    (dropDupByTextAux seen l).find? (fun s => s.text == t)
      = l.find? (fun s => s.text == t) := by
  induction l generalizing seen with
  | nil => rfl
  | cons r rs ih =>
    unfold dropDupByTextAux
    by_cases h : r.text ∈ seen
    · rw [if_pos h, ih seen ht, List.find?_cons_of_neg]
      intro hc
      exact ht (beq_iff_eq.mp hc ▸ h)
    · rw [if_neg h]
      by_cases he : r.text = t
      · rw [@List.find?_cons_of_pos _ (fun s => s.text == t) r _ (beq_iff_eq.mpr he),
          @List.find?_cons_of_pos _ (fun s => s.text == t) r _ (beq_iff_eq.mpr he)]
      · rw [@List.find?_cons_of_neg _ (fun s => s.text == t) r _
            (fun hc => he (beq_iff_eq.mp hc)),
          @List.find?_cons_of_neg _ (fun s => s.text == t) r _
            (fun hc => he (beq_iff_eq.mp hc))]
        exact ih (r.text :: seen) (by
          intro hc
          rcases List.mem_cons.mp hc with h1 | h1
          · exact he h1.symm
          · exact ht h1)

theorem length_filter_key_le_one {α β : Type _} [DecidableEq β] (f : α → β)
    (l : List α) (h : (l.map f).Nodup) (b : β) :
    (l.filter (fun x => decide (f x = b))).length ≤ 1 := by
  induction l with
  | nil => simp
  | cons a as ih =>
    rw [List.map_cons, List.nodup_cons] at h
    obtain ⟨ha, has⟩ := h
    by_cases hab : f a = b
    · have hnil : as.filter (fun x => decide (f x = b)) = [] := by
        rw [List.filter_eq_nil_iff]
        intro x hx hc
        exact ha (List.mem_map.mpr ⟨x, hx, (of_decide_eq_true hc).trans hab.symm⟩)
      simp [List.filter_cons, hab, hnil]
    · simpa [List.filter_cons, hab] using ih has

theorem length_filter_key_eq_one {α β : Type _} [DecidableEq β] (f : α → β)
    (l : List α) (h : (l.map f).Nodup) (b : β) (hb : ∃ x ∈ l, f x = b) :
    (l.filter (fun x => decide (f x = b))).length = 1 := by
  rcases hb with ⟨x, hx, he⟩
  have h1 : x ∈ l.filter (fun x => decide (f x = b)) :=
    List.mem_filter.mpr ⟨hx, decide_eq_true he⟩
  have h2 := List.length_pos.mpr (List.ne_nil_of_mem h1)
  have h3 := length_filter_key_le_one f l h b
  omega

/-- C6: the Multi-Query Aggregator (`_retrieve_with_hybrid`) runs the fusion
engine once per query that is non-empty after whitespace stripping,
concatenates the non-empty per-query tables (`aggDfs ... |>.flatten`) and
deduplicates by exact passage text: (i) the aggregate equals the
concatenation deduplicated by text; (ii) no passage text appears in more
than one row; (iii) each row of the concatenation — e.g. a passage returned
by several sub-queries — appears in the aggregate exactly once, represented
by the first occurrence (same row, hence same score); (iv) if every query is
empty after stripping or every engine call returns nothing, the aggregate is
empty. -/
theorem aggregator_dedup (search : String → List Row) (queries : List String) :
    retrieve_with_hybrid search queries = dropDupByText (aggDfs search queries).flatten
    ∧ (∀ t : String,
        ((retrieve_with_hybrid search queries).filter
          (fun s => decide (s.text = t))).length ≤ 1)
    ∧ (∀ r ∈ (aggDfs search queries).flatten,
        ((retrieve_with_hybrid search queries).filter
          (fun s => decide (s.text = r.text))).length = 1
        ∧ (retrieve_with_hybrid search queries).find? (fun s => s.text == r.text)
            = ((aggDfs search queries).flatten).find? (fun s => s.text == r.text))
    ∧ ((∀ q ∈ queries, pyStrip q = "" ∨ search (pyStrip q) = []) →
        retrieve_with_hybrid search queries = []) := by
  have hdef : retrieve_with_hybrid search queries
      = dropDupByText (aggDfs search queries).flatten := by
    rw [retrieve_with_hybrid]
    rcases h : aggDfs search queries with - | ⟨d, ds⟩
    · rfl
    · rfl
  refine ⟨hdef, ?_, ?_, ?_⟩
  · intro t
    rw [hdef]
    exact length_filter_key_le_one Row.text _ (nodup_text_dropDupByTextAux [] _) t
  · intro r hr
    refine ⟨?_, ?_⟩
    · rw [hdef]
      refine length_filter_key_eq_one Row.text _ (nodup_text_dropDupByTextAux [] _) _ ?_
      exact (text_mem_dropDupByTextAux [] _ _).mpr ⟨⟨r, hr, rfl⟩, List.not_mem_nil _⟩
    · rw [hdef]
      exact find?_dropDupByTextAux [] _ _ (List.not_mem_nil _)
  · intro hall
    have hnil : aggDfs search queries = [] := by
      rw [aggDfs, List.filter_eq_nil_iff]
      intro df hdf
      rcases List.mem_map.mp hdf with ⟨q, hq, rfl⟩
      rcases List.mem_filter.mp hq with ⟨hq1, hq2⟩
      rcases List.mem_map.mp hq1 with ⟨q0, hq0, rfl⟩
      rcases hall q0 hq0 with h | h
      · exact absurd h (of_decide_eq_true hq2)
      · rw [h]
        simp
    rw [retrieve_with_hybrid, hnil]

/-- Witness for C6: two sub-queries whose result tables overlap on passage
text "t2"; the aggregate keeps the first occurrence only, and a third,
whitespace-only query is skipped. -/
theorem aggregator_dedup_witness :
    (⟨some 3, "t2", (5 : ℚ)⟩ : Row) ∈
      (aggDfs
        (fun q => if q = "a" then [⟨some 1, "t1", 1⟩, ⟨some 2, "t2", 2⟩]
          else if q = "b" then [⟨some 3, "t2", 5⟩, ⟨some 4, "t3", 6⟩] else [])
        ["a", " b ", "  "]).flatten
    ∧ (((retrieve_with_hybrid
          (fun q => if q = "a" then [⟨some 1, "t1", 1⟩, ⟨some 2, "t2", 2⟩]
            else if q = "b" then [⟨some 3, "t2", 5⟩, ⟨some 4, "t3", 6⟩] else [])
          ["a", " b ", "  "]).filter
            (fun s => decide (s.text = (⟨some 3, "t2", (5 : ℚ)⟩ : Row).text))).length = 1
      ∧ (retrieve_with_hybrid
          (fun q => if q = "a" then [⟨some 1, "t1", 1⟩, ⟨some 2, "t2", 2⟩]
            else if q = "b" then [⟨some 3, "t2", 5⟩, ⟨some 4, "t3", 6⟩] else [])
          ["a", " b ", "  "]).find?
            (fun s => s.text == (⟨some 3, "t2", (5 : ℚ)⟩ : Row).text)
          = ((aggDfs
              (fun q => if q = "a" then [⟨some 1, "t1", 1⟩, ⟨some 2, "t2", 2⟩]
                else if q = "b" then [⟨some 3, "t2", 5⟩, ⟨some 4, "t3", 6⟩] else [])
              ["a", " b ", "  "]).flatten).find?
              (fun s => s.text == (⟨some 3, "t2", (5 : ℚ)⟩ : Row).text)) :=
  ⟨by decide,
   ((aggregator_dedup
      (fun q => if q = "a" then [⟨some 1, "t1", 1⟩, ⟨some 2, "t2", 2⟩]
        else if q = "b" then [⟨some 3, "t2", 5⟩, ⟨some 4, "t3", 6⟩] else [])
      ["a", " b ", "  "]).2.2.1 ⟨some 3, "t2", (5 : ℚ)⟩ (by decide))⟩

/-! ## Temporal Filter and Reranker claims -/

/-- C7: on any input table, the temporal filter (i) removes every row whose
parseable season is 8, (ii) retains every row whose parseable season is at
most 7, (iii) removes a row with no parseable season whose text contains the
literal string "Season 8" case-insensitively (the lowercased text contains
"season 8"), and (iv) retains a row with no parseable season whose text
contains none of the fixed forbidden marker phrases. -/
theorem temporal_filter_exactness (df : List Row) :
    (∀ r ∈ df, r.season = some 8 → r ∉ filter_to_pre_s8 df)
    ∧ (∀ r ∈ df, ∀ s : Int, r.season = some s → s ≤ 7 → r ∈ filter_to_pre_s8 df)
    ∧ (∀ r ∈ df, r.season = none →
        containsSeq ("season 8".toList) (r.text.toList.map Char.toLower) = true →
        r ∉ filter_to_pre_s8 df)
    ∧ (∀ r ∈ df, r.season = none →
        (∀ k ∈ s8Keywords,
          containsSeq k.toList (r.text.toList.map Char.toLower) = false) →
        r ∈ filter_to_pre_s8 df) := by
  refine ⟨?_, ?_, ?_, ?_⟩
  · intro r _ h8 hmem
    rcases List.mem_append.mp hmem with hm | hm
    · have := (List.mem_filter.mp hm).2
      rw [h8] at this
      exact absurd (of_decide_eq_true this) (by omega)
    · have := (List.mem_filter.mp (List.mem_filter.mp hm).1).2
      rw [h8] at this
      simp at this
  · intro r hr s hs hle
    refine List.mem_append_left _ (List.mem_filter.mpr ⟨hr, ?_⟩)
    rw [hs]
    exact decide_eq_true hle
  · intro r _ hn hcontain hmem
    rcases List.mem_append.mp hmem with hm | hm
    · have := (List.mem_filter.mp hm).2
      rw [hn] at this
      simp at this
    · have hlooks := (List.mem_filter.mp hm).2
      have htrue : looksLikeS8 r.text = true := by
        refine List.any_eq_true.mpr ⟨"season 8", ?_, hcontain⟩
        simp [s8Keywords]
      rw [htrue] at hlooks
      simp at hlooks
  · intro r hr hn hall
    have hfalse : looksLikeS8 r.text = false := by
      rw [looksLikeS8, List.any_eq_false]
      intro k hk
      rw [hall k hk]
      simp
    refine List.mem_append_right _ (List.mem_filter.mpr ⟨?_, ?_⟩)
    · exact List.mem_filter.mpr ⟨hr, decide_eq_true hn⟩
    · rw [hfalse]
      rfl

/-- Witness for C7, part (i): a season-8-tagged row of a concrete table is
removed by the filter. -/
theorem temporal_filter_exactness_witness :
    (⟨some 8, "x", (1 : ℚ)⟩ : Row) ∈
        ([⟨some 8, "x", 1⟩, ⟨some 3, "y", 2⟩, ⟨none, "about Season 8 stuff", 3⟩,
          ⟨none, "plain", 4⟩] : List Row)
    ∧ (⟨some 8, "x", (1 : ℚ)⟩ : Row).season = some 8
    ∧ (⟨some 8, "x", (1 : ℚ)⟩ : Row) ∉
        filter_to_pre_s8 [⟨some 8, "x", 1⟩, ⟨some 3, "y", 2⟩,
          ⟨none, "about Season 8 stuff", 3⟩, ⟨none, "plain", 4⟩] :=
  ⟨by decide, by decide,
   (temporal_filter_exactness [⟨some 8, "x", 1⟩, ⟨some 3, "y", 2⟩,
      ⟨none, "about Season 8 stuff", 3⟩, ⟨none, "plain", 4⟩]).1
     ⟨some 8, "x", (1 : ℚ)⟩ (by decide) (by decide)⟩

/-- C8: when the relevance model is unavailable (the `get_reranker()` result
is `None`, covering both a failed load and absence), reranking is a
pass-through — `rerank` returns the input table unchanged (same passages,
same order, same scores), `node_reranker` passes the retrieved table through
unchanged and records `used = false` in the log — and, the model being a
total function, unavailability raises nothing. -/
theorem reranker_passthrough (question : String) (retrieved : Option (List Row))
    (df : List Row) :
    rerank none df question = RerankResult.passthrough df
    ∧ (node_reranker question retrieved none).1
        = retrieved.map RerankResult.passthrough
    ∧ ((node_reranker question retrieved none).2).used = false := by
  refine ⟨?_, ?_, ?_⟩
  · unfold rerank
    split <;> rfl
  · cases retrieved <;> rfl
  · cases retrieved <;> rfl

/-- C9 counterexample: the claim says that once a load has failed every
subsequent reranking call short-circuits without attempting the load again
until a process restart.  Running two `get_reranker()` calls from the empty
cache with the constructor failing both times, the second call still
attempts a load (its `attempted` flag is `true`), because the failed first
call stored `None` back into `_RERANKER`, indistinguishable from the
never-loaded state; so it is false that all calls after the failure avoid a
load attempt. -/
theorem reranker_no_retry_cex :
    ((run_get_reranker (none : Option Unit) [none, none]).drop 1).all
      (fun c => !c.2) = false := by decide

/-- C9 amended: once a load has *succeeded*, every subsequent call returns
the cached model with no further load attempt; but a *failed* load leaves
the cache empty, so every call that starts from an empty cache — including
every call after a failure — attempts the load again.  There is no
`LOAD_FAILED` latch and no need for a process restart to retry. -/
theorem reranker_cache_behavior :
    ∀ (M : Type) (m : M) (outcomes : List (Option M)) (o : Option M),
      run_get_reranker (some m) outcomes = outcomes.map (fun _ => (some m, false))
      ∧ (get_reranker_step (none : Option M) o).attempted = true := by
  intro M m outcomes o
  refine ⟨?_, rfl⟩
  induction outcomes with
  | nil => rfl
  | cons x xs ih => simpa [run_get_reranker, get_reranker_step] using ih

end CosineOfThrones
